import Mathlib

/-!
# KWin compositing settings: effect list model and effect view

A shallow embedding of `src/kcmkwin/kwincompositing/model.cpp`
(`EffectModel` and `EffectView`), followed by theorems about it.

Modelling conventions.

* `QString` is a list of characters; string literals of the source appear as
  `"...".toList`.
* The outside world the two classes talk to is an explicit `World` value that
  is passed through every stateful member function: the answer of the service
  trader, the `"Plugins"` group of `kwinrc`, and the chronological trace of the
  effects the program performed (configuration writes, `sync()`, model reset
  signals, D-Bus object registration and D-Bus sends).
* Library code (Qt, KDE frameworks) is not part of the repository.  The pieces
  the program relies on are modelled after their documented behaviour, each
  one marked as library code in its doc comment.  `qSort` is a parameter of
  `loadEffects`, constrained only by `QSortContract`, because the order in
  which it leaves equivalent items is unspecified.
-/

namespace KWin
namespace Compositing

/-! ## Library types -/

/-- Library type `QString`, modelled as a list of characters.  `operator<` is the
lexicographic order of lists, characters compared by their code. -/
abbrev QString := List Char

/-- Library function `QString::toLower`, modelled character by character with
`Char.toLower` (the ASCII letters `A`..`Z`; every other character is kept). -/
def QString.toLower (s : QString) : QString := s.map Char.toLower

/-- Whether `s` begins with `str`. -/
def QString.startsWith : QString → QString → Bool
  | _, [] => true
  | [], _ :: _ => false
  | c :: cs, p :: ps => c == p && QString.startsWith cs ps

/-- Worker of `QString.remove` for a non-empty `str`: scans from left to right,
`skip` is the number of characters of a match still to be cut out.  A match
found at the cursor is removed and scanning resumes right behind it, which is
what Qt's loop `while ((i = indexOf(str, i)) != -1) remove(i, str.size())` does. -/
def QString.removeFrom (str : QString) : Nat → QString → QString
  | _, [] => []
  | skip + 1, _ :: cs => QString.removeFrom str skip cs
  | 0, c :: cs =>
    if QString.startsWith (c :: cs) str then QString.removeFrom str (str.length - 1) cs
    else c :: QString.removeFrom str 0 cs

/-- Library function `QString::remove(const QString &str)`: removes every
occurrence of `str`; an empty `str` removes nothing. -/
def QString.remove (s : QString) (str : QString) : QString :=
  if str.isEmpty then s else QString.removeFrom str 0 s

/-- Library type `QVariant`, restricted to the three kinds of value this file
constructs: the invalid variant `QVariant()`, a string and a bool. -/
inductive QVariant where
  | invalid
  | string (s : QString)
  | bool (b : Bool)
  deriving DecidableEq, Repr

/-- Library function `QVariant::toString`. -/
def QVariant.toString : QVariant → QString
  | .invalid => []
  | .string s => s
  | .bool b => if b then "true".toList else "false".toList

/-- Library function `QVariant::toBool`: a string converts to `false` exactly
when its lower-case content is empty, `"0"` or `"false"`. -/
def QVariant.toBool : QVariant → Bool
  | .invalid => false
  | .string s => !(s.isEmpty || s.toLower == "0".toList || s.toLower == "false".toList)
  | .bool b => b

/-- Library function `QList<T>::at(i)`: the item at position `i`; `none` stands
for the out-of-range access (`Q_ASSERT_X(i >= 0 && i < size, ...)` fails, and
without assertions the read is outside the list). -/
def QList.at {α : Type} (l : List α) (i : Int) : Option α :=
  if 0 ≤ i ∧ i < (l.length : Int) then l[i.toNat]? else none

/-- Library type `QHash<Key, T>`: the entries, each key at most once, listed in
the order in which iteration visits them.  Qt leaves that order unspecified;
theorems that quantify over an arbitrary hash cover every order. -/
abbrev QHash (κ ν : Type) := List (κ × ν)

/-- Library operation `hash[key] = value`: overwrites the value of an existing
key where it stands, otherwise adds a new entry. -/
def QHash.insert {κ ν : Type} [DecidableEq κ] : QHash κ ν → κ → ν → QHash κ ν
  | [], key, value => [(key, value)]
  | (k, v) :: rest, key, value =>
    if k = key then (k, value) :: rest else (k, v) :: QHash.insert rest key value

/-- Library function `QHash::value(key)` as an option. -/
def QHash.find {κ ν : Type} [DecidableEq κ] : QHash κ ν → κ → Option ν
  | [], _ => none
  | (k, v) :: rest, key => if k = key then some v else QHash.find rest key

/-- Library type `KPluginInfo`: the metadata of one service offer. -/
structure KPluginInfo where
  name : QString
  comment : QString
  author : QString
  email : QString
  license : QString
  version : QString
  category : QString
  deriving DecidableEq, Repr

/-- Library type `KConfigGroup`, here the group `"Plugins"` of `kwinrc`: the
stored key/value strings, the most recent write first. -/
structure KConfigGroup where
  entries : List (QString × QString)
  deriving DecidableEq, Repr

/-- The stored string of `key`, if the key was ever written. -/
def KConfigGroup.lookup (g : KConfigGroup) (key : QString) : Option QString :=
  g.entries.lookup key

/-- Library function `KConfigGroup::writeEntry(key, QString)`. -/
def KConfigGroup.writeEntry (g : KConfigGroup) (key value : QString) : KConfigGroup :=
  { entries := (key, value) :: g.entries }

/-- Library conversion of a stored string to `bool` (KConfig): the lower-case
strings `"false"`, `"no"`, `"off"` and `"0"` are `false`, everything else `true`. -/
def KConfigGroup.convertToBool (value : QString) : Bool :=
  let lower := value.toLower
  !(lower == "false".toList || lower == "no".toList || lower == "off".toList
    || lower == "0".toList)

/-- Library function `KConfigGroup::readEntry(key, bool aDefault)`: the default
when the key is absent, otherwise the stored string converted to `bool`. -/
def KConfigGroup.readEntry (g : KConfigGroup) (key : QString) (aDefault : Bool) : Bool :=
  match g.lookup key with
  | none => aDefault
  | some value => KConfigGroup.convertToBool value

/-- Library type `QDBusMessage` for a method call. -/
structure QDBusMessage where
  service : QString
  path : QString
  interface : QString
  method : QString
  arguments : List QString
  deriving DecidableEq, Repr

/-- Library function `QDBusMessage::createMethodCall`: a call without arguments. -/
def QDBusMessage.createMethodCall (service path interface method : QString) : QDBusMessage :=
  { service := service, path := path, interface := interface, method := method,
    arguments := [] }

/-- Library operator `message << argument`: appends one argument. -/
def QDBusMessage.append (msg : QDBusMessage) (argument : QString) : QDBusMessage :=
  { msg with arguments := msg.arguments ++ [argument] }

/-! ## The world outside the two classes -/

/-- One externally visible effect of the program. -/
inductive Event where
  | beginResetModel
  | endResetModel
  | registerObject (path : QString)
  | send (message : QDBusMessage)
  | writeEntry (key value : QString)
  | sync
  deriving DecidableEq, Repr

/-- The environment: `offers` is the answer of
`KServiceTypeTrader::self()->query("KWin/Effect")`, `plugins` the group
`"Plugins"` of the shared configuration `kwinrc`, `trace` the effects performed
so far, oldest first. -/
structure World where
  offers : List KPluginInfo
  plugins : KConfigGroup
  trace : List Event
  deriving DecidableEq, Repr

/-- Records an effect. -/
def World.emit (w : World) (e : Event) : World :=
  { w with trace := w.trace ++ [e] }

/-- Effect of `kwinConfig.writeEntry(key, value)` on the shared configuration. -/
def World.writeEntry (w : World) (key value : QString) : World :=
  { w with plugins := w.plugins.writeEntry key value,
           trace := w.trace ++ [Event.writeEntry key value] }

/-- The D-Bus messages sent so far, oldest first. -/
def World.sent (w : World) : List QDBusMessage :=
  w.trace.filterMap fun e => match e with
    | Event.send message => some message
    | _ => none

/-! ## EffectModel -/

/-- Type `EffectData` (declared in `model.h`): one row of the model. -/
structure EffectData where
  name : QString
  description : QString
  authorName : QString
  authorEmail : QString
  license : QString
  version : QString
  category : QString
  serviceName : QString
  effectStatus : Bool
  deriving DecidableEq, Repr

/-- Class `EffectModel`: its only data member. -/
structure EffectModel where
  m_effectsList : List EffectData
  deriving DecidableEq, Repr

/-- The role argument of `data`.  The enumerators are declared in `model.h`;
being labels of one `switch` they are pairwise distinct, `other` is every
remaining `int`. -/
inductive Role where
  | DisplayRole
  | NameRole
  | DescriptionRole
  | AuthorNameRole
  | AuthorEmailRole
  | LicenseRole
  | VersionRole
  | CategoryRole
  | ServiceNameRole
  | EffectStatusRole
  | other
  deriving DecidableEq, Repr

/-- Library type `QModelIndex`: row, column and whether the model pointer is set. -/
structure QModelIndex where
  row : Int
  column : Int
  hasModel : Bool
  deriving DecidableEq, Repr

/-- Library function `QModelIndex::isValid`: `(r >= 0) && (c >= 0) && (m != 0)`. -/
def QModelIndex.isValid (index : QModelIndex) : Bool :=
  decide (0 ≤ index.row) && decide (0 ≤ index.column) && index.hasModel

/-- Member `EffectModel::rowCount`. -/
def EffectModel.rowCount (m : EffectModel) : Int := m.m_effectsList.length

/-- Member `EffectModel::data`.  `none` is the out-of-range list access of
`QList.at`; `some QVariant.invalid` is the empty `QVariant()`. -/
def EffectModel.data (m : EffectModel) (index : QModelIndex) (role : Role) : Option QVariant :=
  if !index.isValid then some QVariant.invalid
  else
    match QList.at m.m_effectsList index.row with
    | none => none
    | some _currentEffect =>
      match role with
      | Role.DisplayRole | Role.NameRole =>
        (QList.at m.m_effectsList index.row).map fun e => QVariant.string e.name
      | Role.DescriptionRole =>
        (QList.at m.m_effectsList index.row).map fun e => QVariant.string e.description
      | Role.AuthorNameRole =>
        (QList.at m.m_effectsList index.row).map fun e => QVariant.string e.authorName
      | Role.AuthorEmailRole =>
        (QList.at m.m_effectsList index.row).map fun e => QVariant.string e.authorEmail
      | Role.LicenseRole =>
        (QList.at m.m_effectsList index.row).map fun e => QVariant.string e.license
      | Role.VersionRole =>
        (QList.at m.m_effectsList index.row).map fun e => QVariant.string e.version
      | Role.CategoryRole =>
        (QList.at m.m_effectsList index.row).map fun e => QVariant.string e.category
      | Role.ServiceNameRole =>
        (QList.at m.m_effectsList index.row).map fun e => QVariant.string e.serviceName
      | Role.EffectStatusRole =>
        (QList.at m.m_effectsList index.row).map fun e => QVariant.bool e.effectStatus
      | Role.other => some QVariant.invalid

/-- Static member `EffectModel::serviceName`:
`"kwin4_effect_" + effectName.toLower().remove(" ")`. -/
def EffectModel.serviceName (effectName : QString) : QString :=
  "kwin4_effect_".toList ++ (effectName.toLower).remove " ".toList

/-- The comparison passed to `qSort` in `loadEffects`: `a.category < b.category`. -/
def categoryLessThan (a b : EffectData) : Bool := decide (a.category < b.category)

/-- The local variables of `loadEffects` that the loop over the offers updates. -/
structure LoadState where
  messageLoadEffect : QDBusMessage
  messageUnloadEffect : QDBusMessage
  m_effectsList : List EffectData
  deriving DecidableEq, Repr

/-- The descriptor one loop iteration of `loadEffects` assembles for `plugin`.
Every field of the loop-external variable `effect` is assigned, so nothing of
the previous iteration survives. -/
def loadEffectData (kwinConfig : KConfigGroup) (plugin : KPluginInfo) : EffectData :=
  let serviceName := EffectModel.serviceName plugin.name
  { name := plugin.name
    description := plugin.comment
    authorName := plugin.author
    authorEmail := plugin.email
    license := plugin.license
    version := plugin.version
    category := plugin.category
    serviceName := serviceName
    effectStatus := kwinConfig.readEntry (serviceName ++ "Enabled".toList) false }

/-- One iteration of the loop of `loadEffects`. -/
def loadEffectsStep (kwinConfig : KConfigGroup) (st : LoadState) (plugin : KPluginInfo) :
    LoadState :=
  let effect := loadEffectData kwinConfig plugin
  let st :=
    if effect.effectStatus then
      { st with messageLoadEffect := st.messageLoadEffect.append effect.serviceName }
    else
      { st with messageUnloadEffect := st.messageUnloadEffect.append effect.serviceName }
  { st with m_effectsList := st.m_effectsList ++ [effect] }

/-- Member `EffectModel::loadEffects`.  `qSort` is the library sort. -/
def EffectModel.loadEffects
    (qSort : (EffectData → EffectData → Bool) → List EffectData → List EffectData)
    (m : EffectModel) (w : World) : EffectModel × World :=
  let kwinConfig := w.plugins
  let messageLoadEffect := QDBusMessage.createMethodCall "org.kde.kwin".toList
    "/Effects".toList "org.kde.kwin.Effects".toList "loadEffect".toList
  let messageUnloadEffect := QDBusMessage.createMethodCall "org.kde.kwin".toList
    "/Effects".toList "org.kde.kwin.Effects".toList "unloadEffect".toList
  let w := w.emit Event.beginResetModel
  let st := w.offers.foldl (loadEffectsStep kwinConfig)
    { messageLoadEffect := messageLoadEffect, messageUnloadEffect := messageUnloadEffect,
      m_effectsList := m.m_effectsList }
  let m_effectsList := qSort categoryLessThan st.m_effectsList
  let w := w.emit Event.endResetModel
  let w := w.emit (Event.registerObject "/Effects".toList)
  let w := w.emit (Event.send st.messageLoadEffect)
  let w := w.emit (Event.send st.messageUnloadEffect)
  ({ m_effectsList := m_effectsList }, w)

/-- Member `EffectModel::reload`: `m_effectsList.clear(); loadEffects();`. -/
def EffectModel.reload
    (qSort : (EffectData → EffectData → Bool) → List EffectData → List EffectData)
    (m : EffectModel) (w : World) : EffectModel × World :=
  EffectModel.loadEffects qSort { m with m_effectsList := [] } w

/-- Constructor `EffectModel::EffectModel`: the list starts empty and
`loadEffects()` fills it (the role names it registers are not modelled). -/
def EffectModel.create
    (qSort : (EffectData → EffectData → Bool) → List EffectData → List EffectData)
    (w : World) : EffectModel × World :=
  EffectModel.loadEffects qSort { m_effectsList := [] } w

/-! ## EffectView -/

/-- Class `EffectView`: the pending edits `QHash<QString, bool> m_effectStatus`. -/
structure EffectView where
  m_effectStatus : QHash QString Bool
  deriving DecidableEq, Repr

/-- A freshly constructed view: no pending edit. -/
def EffectView.create : EffectView := { m_effectStatus := [] }

/-- Member `EffectView::effectStatus`: `m_effectStatus[effectName] = status`. -/
def EffectView.effectStatus (v : EffectView) (effectName : QString) (status : Bool) :
    EffectView :=
  { v with m_effectStatus := QHash.insert v.m_effectStatus effectName status }

/-- One iteration of the loop of `syncConfig`, on the world and the local hash
`effectsChanged`. -/
def syncConfigStep (st : World × QHash QString Bool) (it : QString × Bool) :
    World × QHash QString Bool :=
  let boolToString := QVariant.bool it.2
  let effectName := it.1.toLower
  let effectEntry := effectName.remove " ".toList
  (st.1.writeEntry ("kwin4_effect_".toList ++ effectEntry ++ "Enabled".toList)
      boolToString.toString,
   QHash.insert st.2 ("kwin4_effect_".toList ++ effectEntry) boolToString.toBool)

/-- Member `EffectView::syncConfig`.  The local `effectsChanged` is dropped at
the end of the function, as in the source. -/
def EffectView.syncConfig (v : EffectView) (w : World) : EffectView × World :=
  let st := v.m_effectStatus.foldl syncConfigStep (w, ([] : QHash QString Bool))
  (v, st.1.emit Event.sync)

/-! ## The contract of the library sort -/

/-- A comparison is a strict weak ordering: asymmetric, and being not-less is
transitive. -/
def StrictWeakOrdering {α : Type} (lt : α → α → Bool) : Prop :=
  (∀ a b, lt a b = true → lt b a = false) ∧
  (∀ a b c, lt a b = false → lt b c = false → lt a c = false)

/-- Documented behaviour of Qt's `qSort(begin, end, lessThan)`: the range is
rearranged (a permutation), and for a strict weak ordering it ends up in
ascending order; the order of equivalent items is left open. -/
structure QSortContract
    (qSort : (EffectData → EffectData → Bool) → List EffectData → List EffectData) : Prop where
  perm : ∀ lt l, (qSort lt l).Perm l
  sorted : ∀ lt, StrictWeakOrdering lt → ∀ l,
    (qSort lt l).Pairwise (fun a b => lt b a = false)

/-- Insertion of one item into an ascending list, behind its equivalents. -/
def orderedInsert {α : Type} (lt : α → α → Bool) (x : α) : List α → List α
  | [] => [x]
  | y :: ys => if lt x y then x :: y :: ys else y :: orderedInsert lt x ys

/-- A reference sort meeting `QSortContract`: insertion sort. -/
def insertionQSort {α : Type} (lt : α → α → Bool) : List α → List α
  | [] => []
  | x :: xs => orderedInsert lt x (insertionQSort lt xs)

/-! ## Notions used to state the theorems -/

/-- The descriptors `loadEffects` assembles, in discovery order. -/
def discovered (w : World) : List EffectData :=
  w.offers.map (loadEffectData w.plugins)

/-- The `loadEffect` message `loadEffects` sends. -/
def loadMessage (w : World) : QDBusMessage :=
  { service := "org.kde.kwin".toList, path := "/Effects".toList,
    interface := "org.kde.kwin.Effects".toList, method := "loadEffect".toList,
    arguments := ((discovered w).filter (fun e => e.effectStatus)).map (fun e => e.serviceName) }

/-- The `unloadEffect` message `loadEffects` sends. -/
def unloadMessage (w : World) : QDBusMessage :=
  { service := "org.kde.kwin".toList, path := "/Effects".toList,
    interface := "org.kde.kwin.Effects".toList, method := "unloadEffect".toList,
    arguments := ((discovered w).filter (fun e => !e.effectStatus)).map (fun e => e.serviceName) }

/-- The configuration key under which the enabled flag of the effect called
`name` is stored: `serviceName(name) + "Enabled"`. -/
def enabledKey (name : QString) : QString :=
  EffectModel.serviceName name ++ "Enabled".toList

/-- A method call on the compositor's `/Effects` object with the given method
name and arguments. -/
def effectsCall (method : QString) (arguments : List QString) : QDBusMessage :=
  { service := "org.kde.kwin".toList, path := "/Effects".toList,
    interface := "org.kde.kwin.Effects".toList, method := method, arguments := arguments }

/-- A plugin description with the given name and category, other fields empty. -/
def plugin (name category : String) : KPluginInfo :=
  { name := name.toList, comment := [], author := [], email := [], license := [],
    version := [], category := category.toList }

/-- A sample environment: three plugins, of which only Blur is enabled. -/
def sampleWorld : World :=
  { offers := [plugin "Show Fps" "Tools", plugin "Blur" "Accessibility", plugin "Zoom" "Tools"]
    plugins := { entries := [("kwin4_effect_blurEnabled".toList, "true".toList)] }
    trace := [] }

/-- An environment without any plugin and with an empty configuration. -/
def emptyWorld : World :=
  { offers := [], plugins := { entries := [] }, trace := [] }

/-- The configuration entry `syncConfig` writes for one pending edit. -/
def pendingEntry (it : QString × Bool) : QString × QString :=
  (enabledKey it.1, (QVariant.bool it.2).toString)

/-- An environment in which Blur is discovered and stored as disabled. -/
def blurOffWorld : World :=
  { offers := [plugin "Zoom" "Tools", plugin "Blur" "Appearance"]
    plugins := { entries := [("kwin4_effect_blurEnabled".toList, "false".toList)] }
    trace := [] }

/-! ## Strings -/

theorem QString.removeFrom_single (c : Char) (s : QString) :
    QString.removeFrom [c] 0 s = s.filter (fun x => x != c) := by
  induction s with
  | nil => rfl
  | cons x xs ih =>
    by_cases h : x = c
    · subst h
      simp [QString.removeFrom, QString.startsWith, ih]
    · have hne : (x == c) = false := by simpa using h
      simp [QString.removeFrom, QString.startsWith, ih, hne, h]

theorem QString.remove_single (c : Char) (s : QString) :
    QString.remove s [c] = s.filter (fun x => x != c) := by
  simp [QString.remove, QString.removeFrom_single]

theorem Char.toLower_eq_space (c : Char) : c.toLower = ' ' ↔ c = ' ' := by
  simp only [Char.toLower]
  by_cases h : c.toNat ≥ 65 ∧ c.toNat ≤ 90
  · simp only [h, and_self, if_true]
    constructor
    · intro h2
      have h3 := congrArg Char.toNat h2
      have hv : (c.toNat + 32).isValidChar := by
        left; omega
      rw [Char.ofNat, dif_pos hv] at h3
      simp only [Char.ofNatAux, Char.toNat, UInt32.toNat, BitVec.toNat_ofNatLt] at h3 h
      have h4 : (' ' : Char).val.toBitVec.toNat = 32 := by decide
      simp only [UInt32.toNat] at h4
      omega
    · rintro rfl
      simp at h
  · simp [h]

theorem QString.toLower_filter_space (s : QString) :
    (s.toLower).filter (fun x => x != ' ') = QString.toLower (s.filter (fun x => x != ' ')) := by
  induction s with
  | nil => rfl
  | cons x xs ih =>
    simp only [QString.toLower, List.map_cons, List.filter_cons] at ih ⊢
    by_cases h : x = ' '
    · subst h
      simpa using ih
    · have h2 : ¬ x.toLower = ' ' := fun e => h ((Char.toLower_eq_space x).1 e)
      simp [h, h2, ih]

/-! ## C1 -/

/-- C1. For every effect name, `EffectModel::serviceName` is `"kwin4_effect_"`
followed by the lower-cased name with every space character removed; removing
the spaces before or after lower-casing gives the same string; and
`serviceName("Show Fps")` is `"kwin4_effect_showfps"`. -/
theorem serviceName_eq (n : QString) :
    EffectModel.serviceName n
        = "kwin4_effect_".toList ++ (n.toLower).filter (fun c => c != ' ')
    ∧ EffectModel.serviceName n
        = "kwin4_effect_".toList ++ QString.toLower (n.filter (fun c => c != ' '))
    ∧ EffectModel.serviceName "Show Fps".toList = "kwin4_effect_showfps".toList := by
  have h : EffectModel.serviceName n
      = "kwin4_effect_".toList ++ (n.toLower).filter (fun c => c != ' ') := by
    show "kwin4_effect_".toList ++ (n.toLower).remove [' '] = _
    rw [QString.remove_single]
  refine ⟨h, ?_, by decide⟩
  rw [h, QString.toLower_filter_space]

/-! ## The library sort -/

theorem orderedInsert_perm {α : Type} (lt : α → α → Bool) (x : α) (l : List α) :
    (orderedInsert lt x l).Perm (x :: l) := by
  induction l with
  | nil => exact List.Perm.refl _
  | cons y ys ih =>
    simp only [orderedInsert]
    split
    · exact List.Perm.refl _
    · exact (List.Perm.cons y ih).trans (List.Perm.swap x y ys)

theorem insertionQSort_perm {α : Type} (lt : α → α → Bool) (l : List α) :
    (insertionQSort lt l).Perm l := by
  induction l with
  | nil => exact List.Perm.refl _
  | cons x xs ih =>
    exact (orderedInsert_perm lt x _).trans (List.Perm.cons x ih)

theorem orderedInsert_sorted {α : Type} (lt : α → α → Bool) (hlt : StrictWeakOrdering lt)
    (x : α) (l : List α) (hl : l.Pairwise (fun a b => lt b a = false)) :
    (orderedInsert lt x l).Pairwise (fun a b => lt b a = false) := by
  induction l with
  | nil => simp [orderedInsert]
  | cons y ys ih =>
    have hy := (List.pairwise_cons.1 hl).1
    have hys := (List.pairwise_cons.1 hl).2
    simp only [orderedInsert]
    by_cases hxy : lt x y = true
    · rw [if_pos hxy]
      refine List.pairwise_cons.2 ⟨?_, hl⟩
      intro z hz
      have hyx : lt y x = false := hlt.1 x y hxy
      rcases List.mem_cons.1 hz with rfl | hz
      · exact hyx
      · exact hlt.2 z y x (hy z hz) hyx
    · rw [if_neg hxy]
      refine List.pairwise_cons.2 ⟨?_, ih hys⟩
      intro z hz
      rcases List.mem_cons.1 ((orderedInsert_perm lt x ys).mem_iff.1 hz) with rfl | hz
      · simpa using hxy
      · exact hy z hz

theorem insertionQSort_sorted {α : Type} (lt : α → α → Bool) (hlt : StrictWeakOrdering lt)
    (l : List α) : (insertionQSort lt l).Pairwise (fun a b => lt b a = false) := by
  induction l with
  | nil => exact List.Pairwise.nil
  | cons x xs ih => exact orderedInsert_sorted lt hlt x _ ih

theorem insertionQSort_contract : QSortContract insertionQSort :=
  ⟨fun lt l => insertionQSort_perm lt l, fun lt hlt l => insertionQSort_sorted lt hlt l⟩

theorem categoryLessThan_strictWeak : StrictWeakOrdering categoryLessThan := by
  constructor
  · intro a b h
    simp only [categoryLessThan, decide_eq_true_eq, decide_eq_false_iff_not] at h ⊢
    exact lt_asymm h
  · intro a b c h1 h2
    simp only [categoryLessThan, decide_eq_false_iff_not, not_lt] at h1 h2 ⊢
    exact le_trans h2 h1

/-! ## What `loadEffects` computes -/

theorem loadEffects_foldl (cfg : KConfigGroup) (offers : List KPluginInfo) (st : LoadState) :
    offers.foldl (loadEffectsStep cfg) st =
      { messageLoadEffect :=
          { st.messageLoadEffect with
            arguments := st.messageLoadEffect.arguments ++
              ((offers.map (loadEffectData cfg)).filter (fun e => e.effectStatus)).map
                (fun e => e.serviceName) }
        messageUnloadEffect :=
          { st.messageUnloadEffect with
            arguments := st.messageUnloadEffect.arguments ++
              ((offers.map (loadEffectData cfg)).filter (fun e => !e.effectStatus)).map
                (fun e => e.serviceName) }
        m_effectsList := st.m_effectsList ++ offers.map (loadEffectData cfg) } := by
  induction offers generalizing st with
  | nil => simp
  | cons p ps ih =>
    rw [List.foldl_cons, ih]
    by_cases h : (loadEffectData cfg p).effectStatus = true
    · simp [loadEffectsStep, QDBusMessage.append, h]
    · simp [loadEffectsStep, QDBusMessage.append, h]

theorem loadEffects_model
    (qSort : (EffectData → EffectData → Bool) → List EffectData → List EffectData)
    (m : EffectModel) (w : World) :
    (EffectModel.loadEffects qSort m w).1.m_effectsList
      = qSort categoryLessThan (m.m_effectsList ++ discovered w) := by
  simp [EffectModel.loadEffects, loadEffects_foldl, discovered, World.emit]

theorem loadEffects_world
    (qSort : (EffectData → EffectData → Bool) → List EffectData → List EffectData)
    (m : EffectModel) (w : World) :
    (EffectModel.loadEffects qSort m w).2
      = { w with trace := w.trace ++ [Event.beginResetModel, Event.endResetModel,
            Event.registerObject "/Effects".toList, Event.send (loadMessage w),
            Event.send (unloadMessage w)] } := by
  simp [EffectModel.loadEffects, loadEffects_foldl, discovered, World.emit, loadMessage,
    unloadMessage, QDBusMessage.createMethodCall]

theorem loadEffects_sent
    (qSort : (EffectData → EffectData → Bool) → List EffectData → List EffectData)
    (m : EffectModel) (w : World) :
    (EffectModel.loadEffects qSort m w).2.sent = w.sent ++ [loadMessage w, unloadMessage w] := by
  rw [loadEffects_world]
  simp [World.sent, List.filterMap_append]

theorem loadMessage_eq (w : World) :
    loadMessage w = effectsCall "loadEffect".toList
      ((w.offers.filter (fun p => w.plugins.readEntry (enabledKey p.name) false)).map
        (fun p => EffectModel.serviceName p.name)) := by
  simp [loadMessage, effectsCall, discovered, List.filter_map, Function.comp_def,
    loadEffectData, enabledKey]

theorem unloadMessage_eq (w : World) :
    unloadMessage w = effectsCall "unloadEffect".toList
      ((w.offers.filter (fun p => !(w.plugins.readEntry (enabledKey p.name) false))).map
        (fun p => EffectModel.serviceName p.name)) := by
  simp [unloadMessage, effectsCall, discovered, List.filter_map, Function.comp_def,
    loadEffectData, enabledKey]

theorem filter_length_add {α : Type} (f : α → Bool) (l : List α) :
    (l.filter f).length + (l.filter (fun a => !(f a))).length = l.length := by
  induction l with
  | nil => rfl
  | cons x xs ih =>
    by_cases h : f x = true
    · simp [List.filter_cons, h]; omega
    · simp [List.filter_cons, h]; omega

/-! ## C10 -/

/-- C10. Whatever the plugins and the previous model content, `loadEffects`
sends exactly two messages, first one `loadEffect` and then one `unloadEffect`
call; the arguments of the first are the service names of the plugins whose
`...Enabled` entry reads true, those of the second the service names of the
other plugins, both in discovery order, so both argument lists together have
one entry per plugin. With no plugin both messages are sent without argument.
In the sample environment the argument order (Show Fps before Zoom) is the
discovery order while the sorted model lists Zoom first. -/
theorem loadEffects_sends_two_messages
    (qSort : (EffectData → EffectData → Bool) → List EffectData → List EffectData)
    (m : EffectModel) (w : World) :
    (EffectModel.loadEffects qSort m w).2.sent = w.sent ++
      [effectsCall "loadEffect".toList
        ((w.offers.filter (fun p => w.plugins.readEntry (enabledKey p.name) false)).map
          (fun p => EffectModel.serviceName p.name)),
       effectsCall "unloadEffect".toList
        ((w.offers.filter (fun p => !(w.plugins.readEntry (enabledKey p.name) false))).map
          (fun p => EffectModel.serviceName p.name))]
    ∧ ((w.offers.filter (fun p => w.plugins.readEntry (enabledKey p.name) false)).map
          (fun p => EffectModel.serviceName p.name)).length
      + ((w.offers.filter (fun p => !(w.plugins.readEntry (enabledKey p.name) false))).map
          (fun p => EffectModel.serviceName p.name)).length = w.offers.length
    ∧ (EffectModel.loadEffects qSort m { w with offers := [] }).2.sent = w.sent ++
      [effectsCall "loadEffect".toList [], effectsCall "unloadEffect".toList []]
    ∧ (EffectModel.loadEffects insertionQSort { m_effectsList := [] } sampleWorld).2.sent =
      [effectsCall "loadEffect".toList ["kwin4_effect_blur".toList],
       effectsCall "unloadEffect".toList
        ["kwin4_effect_showfps".toList, "kwin4_effect_zoom".toList]]
    ∧ (EffectModel.loadEffects insertionQSort { m_effectsList := [] }
        sampleWorld).1.m_effectsList.map (fun e => e.serviceName) =
      ["kwin4_effect_blur".toList, "kwin4_effect_zoom".toList,
       "kwin4_effect_showfps".toList] := by
  refine ⟨?_, ?_, ?_, by decide, by decide⟩
  · rw [loadEffects_sent, loadMessage_eq, unloadMessage_eq]
  · simp only [List.length_map]
    exact filter_length_add _ _
  · rw [loadEffects_sent, loadMessage_eq, unloadMessage_eq]
    simp [World.sent]

/-! ## C6 -/

theorem discovered_map_category (w : World) :
    (discovered w).map (fun e => e.category) = w.offers.map (fun p => p.category) := by
  simp [discovered, loadEffectData, Function.comp_def]

theorem loadEffects_perm
    (qSort : (EffectData → EffectData → Bool) → List EffectData → List EffectData)
    (hq : QSortContract qSort) (w : World) :
    (EffectModel.loadEffects qSort { m_effectsList := [] } w).1.m_effectsList.Perm
      (discovered w) := by
  rw [loadEffects_model]
  simpa using hq.perm categoryLessThan (discovered w)

theorem loadEffects_pairwise
    (qSort : (EffectData → EffectData → Bool) → List EffectData → List EffectData)
    (hq : QSortContract qSort) (m : EffectModel) (w : World) :
    (EffectModel.loadEffects qSort m w).1.m_effectsList.Pairwise
      (fun a b => a.category ≤ b.category) := by
  rw [loadEffects_model]
  refine (hq.sorted categoryLessThan categoryLessThan_strictWeak _).imp ?_
  intro a b h
  simpa [categoryLessThan] using h

/-- C6. After `loadEffects` on an empty model the sequence is a permutation of
the descriptors built from the discovered plugins, and it is ordered by
category: whenever position `i` comes before position `j`, the category at `i`
is lexicographically at most the one at `j`. Plugins discovered with the
categories Tools, Accessibility, Tools end up as Accessibility, Tools, Tools. -/
theorem loadEffects_sorted_by_category
    (qSort : (EffectData → EffectData → Bool) → List EffectData → List EffectData)
    (hq : QSortContract qSort) (w : World) :
    (EffectModel.loadEffects qSort { m_effectsList := [] } w).1.m_effectsList.Perm
      (w.offers.map (loadEffectData w.plugins))
    ∧ (∀ (i j : Nat) (a b : EffectData), i < j →
        (EffectModel.loadEffects qSort { m_effectsList := [] } w).1.m_effectsList[i]? = some a →
        (EffectModel.loadEffects qSort { m_effectsList := [] } w).1.m_effectsList[j]? = some b →
        a.category ≤ b.category)
    ∧ (w.offers.map (fun p => p.category)
          = ["Tools".toList, "Accessibility".toList, "Tools".toList] →
        (EffectModel.loadEffects qSort { m_effectsList := [] } w).1.m_effectsList.map
            (fun e => e.category)
          = ["Accessibility".toList, "Tools".toList, "Tools".toList]) := by
  have hperm := loadEffects_perm qSort hq w
  have hsorted := loadEffects_pairwise qSort hq { m_effectsList := [] } w
  refine ⟨hperm, ?_, ?_⟩
  · intro i j a b hij hi hj
    rw [List.getElem?_eq_some_iff] at hi hj
    obtain ⟨hi, rfl⟩ := hi
    obtain ⟨hj, rfl⟩ := hj
    exact List.pairwise_iff_getElem.1 hsorted i j hi hj hij
  · intro hcat
    have h1 : ((EffectModel.loadEffects qSort { m_effectsList := [] } w).1.m_effectsList.map
        (fun e => e.category)).Perm
        ["Accessibility".toList, "Tools".toList, "Tools".toList] := by
      refine (hperm.map _).trans ?_
      rw [discovered_map_category, hcat]
      exact List.Perm.swap _ _ _
    have h2 : ((EffectModel.loadEffects qSort { m_effectsList := [] } w).1.m_effectsList.map
        (fun e => e.category)).Sorted (· ≤ ·) :=
      List.pairwise_map.2 hsorted
    have h3 : (["Accessibility".toList, "Tools".toList, "Tools".toList] :
        List QString).Sorted (· ≤ ·) := by
      decide
    exact List.eq_of_perm_of_sorted h1 h2 h3

/-- Witness of C6 in the sample environment with the reference sort. -/
theorem loadEffects_sorted_by_category_witness :
    QSortContract insertionQSort
    ∧ (loadEffectData sampleWorld.plugins (plugin "Blur" "Accessibility")).category
        ≤ (loadEffectData sampleWorld.plugins (plugin "Show Fps" "Tools")).category
    ∧ (EffectModel.loadEffects insertionQSort { m_effectsList := [] }
        sampleWorld).1.m_effectsList.map (fun e => e.category)
      = ["Accessibility".toList, "Tools".toList, "Tools".toList] :=
  ⟨insertionQSort_contract,
   (loadEffects_sorted_by_category insertionQSort insertionQSort_contract sampleWorld).2.1
     0 2 _ _ (by decide) (by decide) (by decide),
   (loadEffects_sorted_by_category insertionQSort insertionQSort_contract sampleWorld).2.2
     (by decide)⟩

/-! ## C2 -/

theorem discovered_effectStatus (w : World) (d : EffectData) (hd : d ∈ discovered w) :
    d.serviceName = EffectModel.serviceName d.name
    ∧ d.effectStatus = w.plugins.readEntry (enabledKey d.name) false := by
  simp only [discovered, List.mem_map] at hd
  obtain ⟨p, _, rfl⟩ := hd
  exact ⟨rfl, rfl⟩

theorem discovered_status_of_serviceName (w : World) (d e : EffectData)
    (hd : d ∈ discovered w) (he : e ∈ discovered w) (h : d.serviceName = e.serviceName) :
    d.effectStatus = e.effectStatus := by
  simp only [discovered, List.mem_map] at hd he
  obtain ⟨p, _, rfl⟩ := hd
  obtain ⟨q, _, rfl⟩ := he
  simp only [loadEffectData] at h ⊢
  rw [h]

/-- C2, the claim as stated fails. With no plugin the model has no descriptor
but two messages are sent; in the sample environment three descriptors face two
messages, and the single `unloadEffect` call carries two service names. -/
theorem loadEffects_calls_counterexample :
    (EffectModel.loadEffects insertionQSort { m_effectsList := [] } emptyWorld).1.m_effectsList
      = []
    ∧ (EffectModel.loadEffects insertionQSort { m_effectsList := [] } emptyWorld).2.sent
      = [effectsCall "loadEffect".toList [], effectsCall "unloadEffect".toList []]
    ∧ (EffectModel.loadEffects insertionQSort { m_effectsList := [] }
        sampleWorld).1.m_effectsList.length = 3
    ∧ (EffectModel.loadEffects insertionQSort { m_effectsList := [] } sampleWorld).2.sent
      = [effectsCall "loadEffect".toList ["kwin4_effect_blur".toList],
         effectsCall "unloadEffect".toList
          ["kwin4_effect_showfps".toList, "kwin4_effect_zoom".toList]] := by
  decide

/-- C2, amended. After `loadEffects` on an empty model exactly two messages
have been sent, one `loadEffect` and one `unloadEffect` call, whatever the
number of descriptors. Every descriptor contributes exactly one argument to
them (the two argument lists together are a rearrangement of the service names
of the model), and a descriptor's service name is an argument of the
`loadEffect` call if and only if its enabled flag is true, of the
`unloadEffect` call if and only if the flag is false. -/
theorem loadEffects_calls_per_descriptor
    (qSort : (EffectData → EffectData → Bool) → List EffectData → List EffectData)
    (hq : QSortContract qSort) (w : World) :
    ∃ loadArgs unloadArgs : List QString,
      (EffectModel.loadEffects qSort { m_effectsList := [] } w).2.sent = w.sent ++
        [effectsCall "loadEffect".toList loadArgs, effectsCall "unloadEffect".toList unloadArgs]
      ∧ (loadArgs ++ unloadArgs).Perm
          ((EffectModel.loadEffects qSort { m_effectsList := [] } w).1.m_effectsList.map
            (fun d => d.serviceName))
      ∧ ∀ d ∈ (EffectModel.loadEffects qSort { m_effectsList := [] } w).1.m_effectsList,
          (d.serviceName ∈ loadArgs ↔ d.effectStatus = true)
          ∧ (d.serviceName ∈ unloadArgs ↔ d.effectStatus = false) := by
  have hperm := loadEffects_perm qSort hq w
  refine ⟨((discovered w).filter (fun e => e.effectStatus)).map (fun e => e.serviceName),
    ((discovered w).filter (fun e => !e.effectStatus)).map (fun e => e.serviceName), ?_, ?_, ?_⟩
  · rw [loadEffects_sent]
    rfl
  · rw [← List.map_append]
    exact ((List.filter_append_perm _ _).trans hperm.symm).map _
  · intro d hd
    have hd2 : d ∈ discovered w := hperm.mem_iff.1 hd
    constructor
    · constructor
      · intro h
        obtain ⟨e, he, hes⟩ := List.mem_map.1 h
        obtain ⟨he1, he2⟩ := List.mem_filter.1 he
        rw [discovered_status_of_serviceName w d e hd2 he1 hes.symm]
        exact he2
      · intro h
        exact List.mem_map.2 ⟨d, List.mem_filter.2 ⟨hd2, h⟩, rfl⟩
    · constructor
      · intro h
        obtain ⟨e, he, hes⟩ := List.mem_map.1 h
        obtain ⟨he1, he2⟩ := List.mem_filter.1 he
        rw [discovered_status_of_serviceName w d e hd2 he1 hes.symm]
        simpa using he2
      · intro h
        exact List.mem_map.2 ⟨d, List.mem_filter.2 ⟨hd2, by simp [h]⟩, rfl⟩

/-- Witness of the amended C2 in the sample environment with the reference sort. -/
theorem loadEffects_calls_per_descriptor_witness :
    QSortContract insertionQSort ∧
    ∃ loadArgs unloadArgs : List QString,
      (EffectModel.loadEffects insertionQSort { m_effectsList := [] } sampleWorld).2.sent
        = sampleWorld.sent ++
        [effectsCall "loadEffect".toList loadArgs, effectsCall "unloadEffect".toList unloadArgs]
      ∧ (loadArgs ++ unloadArgs).Perm
          ((EffectModel.loadEffects insertionQSort { m_effectsList := [] }
            sampleWorld).1.m_effectsList.map (fun d => d.serviceName))
      ∧ ("kwin4_effect_blur".toList ∈ loadArgs ↔ true = true)
      ∧ ("kwin4_effect_blur".toList ∈ unloadArgs ↔ true = false) :=
  ⟨insertionQSort_contract,
   match loadEffects_calls_per_descriptor insertionQSort insertionQSort_contract
      sampleWorld with
   | ⟨loadArgs, unloadArgs, hsent, hperm, hall⟩ =>
     ⟨loadArgs, unloadArgs, hsent, hperm,
      hall (loadEffectData sampleWorld.plugins (plugin "Blur" "Accessibility")) (by decide)⟩⟩

/-! ## C9 -/

theorem readEntry_of_lookup_none (g : KConfigGroup) (key : QString) (aDefault : Bool)
    (h : g.lookup key = none) : g.readEntry key aDefault = aDefault := by
  simp [KConfigGroup.readEntry, h]

theorem readEntry_of_lookup_bool (g : KConfigGroup) (key : QString) (aDefault b : Bool)
    (h : g.lookup key = some (QVariant.bool b).toString) : g.readEntry key aDefault = b := by
  simp only [KConfigGroup.readEntry, h]
  cases b <;> decide

/-- C9. After `loadEffects` on an empty model every discovered plugin has a
descriptor in the model, and the enabled flag of every descriptor is what
`readEntry` returns for the key `serviceName(name) + "Enabled"` of the
`"Plugins"` group with default `false`: `false` when the key was never
written, and `b` when the stored string is the one `syncConfig` writes for the
boolean `b`. -/
theorem loadEffects_effectStatus
    (qSort : (EffectData → EffectData → Bool) → List EffectData → List EffectData)
    (hq : QSortContract qSort) (w : World) :
    (∀ p ∈ w.offers,
      ∃ d ∈ (EffectModel.loadEffects qSort { m_effectsList := [] } w).1.m_effectsList,
        d.name = p.name ∧ d.serviceName = EffectModel.serviceName p.name
        ∧ d.effectStatus = w.plugins.readEntry (enabledKey p.name) false)
    ∧ (∀ d ∈ (EffectModel.loadEffects qSort { m_effectsList := [] } w).1.m_effectsList,
        d.effectStatus = w.plugins.readEntry (enabledKey d.name) false
        ∧ (w.plugins.lookup (enabledKey d.name) = none → d.effectStatus = false)
        ∧ (∀ b : Bool, w.plugins.lookup (enabledKey d.name) = some (QVariant.bool b).toString →
            d.effectStatus = b)) := by
  have hperm := loadEffects_perm qSort hq w
  constructor
  · intro p hp
    exact ⟨loadEffectData w.plugins p, hperm.mem_iff.2 (List.mem_map.2 ⟨p, hp, rfl⟩),
      rfl, rfl, rfl⟩
  · intro d hd
    have h := (discovered_effectStatus w d (hperm.mem_iff.1 hd)).2
    refine ⟨h, ?_, ?_⟩
    · intro hnone
      rw [h, readEntry_of_lookup_none _ _ _ hnone]
    · intro b hb
      rw [h, readEntry_of_lookup_bool _ _ _ _ hb]

/-- Witness of C9: in the sample environment Zoom, whose key was never written,
has a descriptor that is disabled. -/
theorem loadEffects_effectStatus_witness :
    QSortContract insertionQSort
    ∧ sampleWorld.plugins.lookup (enabledKey "Zoom".toList) = none
    ∧ (∃ d ∈ (EffectModel.loadEffects insertionQSort { m_effectsList := [] }
          sampleWorld).1.m_effectsList,
        d.name = "Zoom".toList ∧ d.serviceName = EffectModel.serviceName "Zoom".toList
        ∧ d.effectStatus = sampleWorld.plugins.readEntry (enabledKey "Zoom".toList) false)
    ∧ (loadEffectData sampleWorld.plugins (plugin "Zoom" "Tools")).effectStatus = false
    ∧ (loadEffectData sampleWorld.plugins (plugin "Blur" "Accessibility")).effectStatus = true :=
  ⟨insertionQSort_contract, by decide,
   (loadEffects_effectStatus insertionQSort insertionQSort_contract sampleWorld).1
     (plugin "Zoom" "Tools") (by decide),
   ((loadEffects_effectStatus insertionQSort insertionQSort_contract sampleWorld).2
     (loadEffectData sampleWorld.plugins (plugin "Zoom" "Tools")) (by decide)).2.1 (by decide),
   ((loadEffects_effectStatus insertionQSort insertionQSort_contract sampleWorld).2
     (loadEffectData sampleWorld.plugins (plugin "Blur" "Accessibility")) (by decide)).2.2
     true (by decide)⟩

/-! ## C5 -/

/-- C5. Loading an empty model and then calling `reload` in an environment with
the same discovered plugins and the same store gives the same model: the same
descriptors in the same order, hence the same length. `loadEffects` itself
changes neither the plugins nor the store, so this covers a reload that
follows the load immediately. -/
theorem reload_after_load
    (qSort : (EffectData → EffectData → Bool) → List EffectData → List EffectData)
    (w w2 : World) (hoffers : w2.offers = w.offers) (hplugins : w2.plugins = w.plugins) :
    (EffectModel.reload qSort (EffectModel.loadEffects qSort { m_effectsList := [] } w).1 w2).1
      = (EffectModel.loadEffects qSort { m_effectsList := [] } w).1
    ∧ (EffectModel.loadEffects qSort { m_effectsList := [] } w).2.offers = w.offers
    ∧ (EffectModel.loadEffects qSort { m_effectsList := [] } w).2.plugins = w.plugins
    ∧ (EffectModel.reload qSort (EffectModel.loadEffects qSort { m_effectsList := [] } w).1
          (EffectModel.loadEffects qSort { m_effectsList := [] } w).2).1
      = (EffectModel.loadEffects qSort { m_effectsList := [] } w).1 := by
  have key : ∀ (m : EffectModel) (v : World), v.offers = w.offers → v.plugins = w.plugins →
      (EffectModel.reload qSort m v).1
        = (EffectModel.loadEffects qSort { m_effectsList := [] } w).1 := by
    intro m v h1 h2
    simp [EffectModel.reload, EffectModel.loadEffects, World.emit, h1, h2]
  have ho : (EffectModel.loadEffects qSort { m_effectsList := [] } w).2.offers = w.offers := by
    rw [loadEffects_world]
  have hp : (EffectModel.loadEffects qSort { m_effectsList := [] } w).2.plugins = w.plugins := by
    rw [loadEffects_world]
  exact ⟨key _ w2 hoffers hplugins, ho, hp, key _ _ ho hp⟩

/-- Witness of C5: load in the sample environment, reload in the environment
the load left behind. -/
theorem reload_after_load_witness :
    (EffectModel.reload insertionQSort
        (EffectModel.loadEffects insertionQSort { m_effectsList := [] } sampleWorld).1
        (EffectModel.loadEffects insertionQSort { m_effectsList := [] } sampleWorld).2).1
      = (EffectModel.loadEffects insertionQSort { m_effectsList := [] } sampleWorld).1 :=
  (reload_after_load insertionQSort sampleWorld
    (EffectModel.loadEffects insertionQSort { m_effectsList := [] } sampleWorld).2
    (by decide) (by decide)).1

/-! ## What `syncConfig` computes -/

theorem syncConfig_foldl (pending : QHash QString Bool) (st : World × QHash QString Bool) :
    (pending.foldl syncConfigStep st).1 =
      { st.1 with
        plugins := { entries := (pending.map pendingEntry).reverse ++ st.1.plugins.entries }
        trace := st.1.trace ++
          pending.map (fun it => Event.writeEntry (pendingEntry it).1 (pendingEntry it).2) } := by
  induction pending generalizing st with
  | nil => simp
  | cons it rest ih =>
    rw [List.foldl_cons, ih]
    simp [syncConfigStep, World.writeEntry, KConfigGroup.writeEntry, pendingEntry, enabledKey,
      EffectModel.serviceName]

theorem syncConfig_world (v : EffectView) (w : World) :
    (v.syncConfig w).2 =
      { w with
        plugins :=
          { entries := (v.m_effectStatus.map pendingEntry).reverse ++ w.plugins.entries }
        trace := w.trace ++
          v.m_effectStatus.map (fun it => Event.writeEntry (pendingEntry it).1 (pendingEntry it).2)
          ++ [Event.sync] } := by
  simp [EffectView.syncConfig, syncConfig_foldl, World.emit]

theorem lookup_append_of_not_mem (key : QString) (l es : List (QString × QString))
    (h : ∀ e ∈ l, e.1 ≠ key) : (l ++ es).lookup key = es.lookup key := by
  induction l with
  | nil => rfl
  | cons e rest ih =>
    obtain ⟨k, x⟩ := e
    have hk : k ≠ key := h (k, x) (List.mem_cons_self _ _)
    have hk2 : (key == k) = false := by
      simpa using fun e => hk e.symm
    rw [List.cons_append, List.lookup_cons, hk2]
    exact ih fun e he => h e (List.mem_cons_of_mem _ he)

theorem sent_writes (pending : QHash QString Bool) :
    (pending.map (fun it => Event.writeEntry (pendingEntry it).1 (pendingEntry it).2)).filterMap
      (fun e => match e with
        | Event.send message => some message
        | _ => none) = [] := by
  induction pending with
  | nil => rfl
  | cons it rest _ => simp

theorem syncConfig_sent (v : EffectView) (w : World) : (v.syncConfig w).2.sent = w.sent := by
  rw [syncConfig_world]
  simp [World.sent, List.filterMap_append, sent_writes]

theorem syncConfig_offers (v : EffectView) (w : World) :
    (v.syncConfig w).2.offers = w.offers := by
  rw [syncConfig_world]

/-! ## C8 -/

/-- C8. For every pending-edit map and every store, `syncConfig` performs, in
iteration order of the map, one `writeEntry` per pending edit, under the key
`serviceName(name) + "Enabled"` (the key built inline is the one
`EffectModel::serviceName` derives) with the boolean as string, followed by
exactly one `sync()`, and nothing else: no message is sent. Every other key of
the store reads as before, and the pending-edit map is unchanged. -/
theorem syncConfig_frame (v : EffectView) (w : World) :
    (v.syncConfig w).1 = v
    ∧ (v.syncConfig w).2.trace = w.trace ++
        v.m_effectStatus.map (fun it =>
          Event.writeEntry (EffectModel.serviceName it.1 ++ "Enabled".toList)
            (QVariant.bool it.2).toString)
        ++ [Event.sync]
    ∧ (v.syncConfig w).2.sent = w.sent
    ∧ (v.syncConfig w).2.offers = w.offers
    ∧ (∀ key : QString,
        (∀ it ∈ v.m_effectStatus, key ≠ EffectModel.serviceName it.1 ++ "Enabled".toList) →
        (v.syncConfig w).2.plugins.lookup key = w.plugins.lookup key
        ∧ ∀ aDefault : Bool, (v.syncConfig w).2.plugins.readEntry key aDefault
            = w.plugins.readEntry key aDefault) := by
  refine ⟨rfl, ?_, ?_, ?_, ?_⟩
  · rw [syncConfig_world]
    rfl
  · exact syncConfig_sent v w
  · exact syncConfig_offers v w
  · intro key hkey
    have h : (v.syncConfig w).2.plugins.lookup key = w.plugins.lookup key := by
      rw [syncConfig_world]
      simp only [KConfigGroup.lookup]
      apply lookup_append_of_not_mem
      intro e he
      obtain ⟨it, hit, rfl⟩ := List.mem_map.1 (List.mem_reverse.1 he)
      exact fun e => hkey it hit e.symm
    refine ⟨h, fun aDefault => ?_⟩
    simp only [KConfigGroup.readEntry, h]

/-- Witness of C8: a single pending edit for Blur leaves the key of Zoom alone. -/
theorem syncConfig_frame_witness :
    ((EffectView.create.effectStatus "Blur".toList false).syncConfig sampleWorld).2.plugins.lookup
        "kwin4_effect_zoomEnabled".toList
      = sampleWorld.plugins.lookup "kwin4_effect_zoomEnabled".toList
    ∧ ∀ aDefault : Bool,
      ((EffectView.create.effectStatus "Blur".toList false).syncConfig
          sampleWorld).2.plugins.readEntry "kwin4_effect_zoomEnabled".toList aDefault
        = sampleWorld.plugins.readEntry "kwin4_effect_zoomEnabled".toList aDefault :=
  (syncConfig_frame (EffectView.create.effectStatus "Blur".toList false) sampleWorld).2.2.2.2
    "kwin4_effect_zoomEnabled".toList (by decide)

/-! ## The pending-edit hash -/

theorem QHash.find_insert_self {κ ν : Type} [DecidableEq κ] (h : QHash κ ν) (key : κ)
    (value : ν) : QHash.find (QHash.insert h key value) key = some value := by
  induction h with
  | nil => simp [QHash.insert, QHash.find]
  | cons e rest ih =>
    obtain ⟨k, x⟩ := e
    by_cases hk : k = key
    · simp [QHash.insert, QHash.find, hk]
    · simp [QHash.insert, QHash.find, hk, ih]

theorem QHash.find_insert_other {κ ν : Type} [DecidableEq κ] (h : QHash κ ν) (key other : κ)
    (value : ν) (hne : other ≠ key) :
    QHash.find (QHash.insert h key value) other = QHash.find h other := by
  have hne2 : ¬ key = other := fun e => hne e.symm
  induction h with
  | nil => simp [QHash.insert, QHash.find, hne2]
  | cons e rest ih =>
    obtain ⟨k, x⟩ := e
    by_cases hk : k = key
    · subst hk
      simp [QHash.insert, QHash.find, hne2]
    · simp [QHash.insert, QHash.find, hk, ih]

theorem QHash.insert_insert {κ ν : Type} [DecidableEq κ] (h : QHash κ ν) (key : κ)
    (x y : ν) : QHash.insert (QHash.insert h key x) key y = QHash.insert h key y := by
  induction h with
  | nil => simp [QHash.insert]
  | cons e rest ih =>
    obtain ⟨k, v⟩ := e
    by_cases hk : k = key
    · simp [QHash.insert, hk]
    · simp [QHash.insert, hk, ih]

theorem QHash.keys_insert {κ ν : Type} [DecidableEq κ] (h : QHash κ ν) (key : κ) (value : ν)
    (k : κ) (hk : k ∈ (QHash.insert h key value).map Prod.fst) :
    k = key ∨ k ∈ h.map Prod.fst := by
  induction h with
  | nil =>
    left
    simpa [QHash.insert] using hk
  | cons e rest ih =>
    obtain ⟨k2, v⟩ := e
    by_cases hk2 : k2 = key
    · right
      simpa [QHash.insert, hk2] using hk
    · simp only [QHash.insert, hk2, if_false, List.map_cons, List.mem_cons] at hk
      rcases hk with rfl | hk
      · right
        simp
      · rcases ih hk with h1 | h1
        · exact Or.inl h1
        · right
          exact List.mem_cons_of_mem _ h1

theorem QHash.nodup_insert {κ ν : Type} [DecidableEq κ] (h : QHash κ ν) (key : κ) (value : ν)
    (hn : (h.map Prod.fst).Nodup) : ((QHash.insert h key value).map Prod.fst).Nodup := by
  induction h with
  | nil => simp [QHash.insert]
  | cons e rest ih =>
    obtain ⟨k, v⟩ := e
    have hn1 := (List.nodup_cons.1 hn).1
    have hn2 := (List.nodup_cons.1 hn).2
    by_cases hk : k = key
    · simpa [QHash.insert, hk] using hn
    · simp only [QHash.insert, hk, if_false, List.map_cons]
      refine List.nodup_cons.2 ⟨?_, ih hn2⟩
      intro hmem
      rcases QHash.keys_insert rest key value k hmem with h1 | h1
      · exact hk h1
      · exact hn1 h1

theorem QHash.count_insert {κ ν : Type} [DecidableEq κ] (h : QHash κ ν) (key : κ) (value : ν)
    (hn : (h.map Prod.fst).Nodup) :
    ((QHash.insert h key value).filter (fun it => decide (it.1 = key))).length = 1 := by
  induction h with
  | nil => simp [QHash.insert]
  | cons e rest ih =>
    obtain ⟨k, v⟩ := e
    have hn1 := (List.nodup_cons.1 hn).1
    have hn2 := (List.nodup_cons.1 hn).2
    by_cases hk : k = key
    · subst hk
      have hrest : rest.filter (fun it => decide (it.1 = k)) = [] := by
        apply List.filter_eq_nil_iff.2
        intro it hit
        have hne : it.1 ≠ k := by
          intro e
          exact hn1 (List.mem_map.2 ⟨it, hit, e⟩)
        simpa using hne
      simp [QHash.insert, List.filter_cons, hrest]
    · simp [QHash.insert, hk, List.filter_cons, ih hn2]

theorem QHash.mem_of_find {κ ν : Type} [DecidableEq κ] (h : QHash κ ν) (key : κ) (value : ν)
    (hf : QHash.find h key = some value) : (key, value) ∈ h := by
  induction h with
  | nil => simp [QHash.find] at hf
  | cons e rest ih =>
    obtain ⟨k, v⟩ := e
    by_cases hk : k = key
    · simp only [QHash.find, hk, if_true, Option.some.injEq] at hf
      simp [hk, hf]
    · simp only [QHash.find, hk, if_false] at hf
      exact List.mem_cons_of_mem _ (ih hf)

theorem QHash.mem_insert {κ ν : Type} [DecidableEq κ] (h : QHash κ ν) (key : κ) (value : ν)
    (hn : (h.map Prod.fst).Nodup) (it : κ × ν) (hit : it ∈ QHash.insert h key value) :
    it = (key, value) ∨ (it ∈ h ∧ it.1 ≠ key) := by
  induction h with
  | nil =>
    left
    simpa [QHash.insert] using hit
  | cons e rest ih =>
    obtain ⟨k, v⟩ := e
    have hn1 := (List.nodup_cons.1 hn).1
    have hn2 := (List.nodup_cons.1 hn).2
    by_cases hk : k = key
    · subst hk
      simp only [QHash.insert, if_true, List.mem_cons] at hit
      rcases hit with h1 | h1
      · exact Or.inl h1
      · right
        refine ⟨List.mem_cons_of_mem _ h1, ?_⟩
        intro e
        exact hn1 (List.mem_map.2 ⟨it, h1, e⟩)
    · simp only [QHash.insert, hk, if_false, List.mem_cons] at hit
      rcases hit with h1 | h1
      · right
        subst h1
        exact ⟨List.mem_cons_self _ _, hk⟩
      · rcases ih hn2 h1 with h2 | h2
        · exact Or.inl h2
        · exact Or.inr ⟨List.mem_cons_of_mem _ h2.1, h2.2⟩

theorem lookup_append_of_unique (key value : QString) (l es : List (QString × QString))
    (hmem : (key, value) ∈ l) (huniq : ∀ e ∈ l, e.1 = key → e.2 = value) :
    (l ++ es).lookup key = some value := by
  induction l with
  | nil => simp at hmem
  | cons e rest ih =>
    obtain ⟨k, x⟩ := e
    rw [List.cons_append, List.lookup_cons]
    by_cases hk : k = key
    · have hx : x = value := huniq (k, x) (List.mem_cons_self _ _) hk
      simp [hk, hx]
    · have hk2 : (key == k) = false := by
        simpa using fun e => hk e.symm
      rw [hk2]
      refine ih ?_ fun e he => huniq e (List.mem_cons_of_mem _ he)
      rcases List.mem_cons.1 hmem with h1 | h1
      · exact absurd (congrArg Prod.fst h1).symm hk
      · exact h1

/-! ## C7 -/

/-- C7, the claim as stated fails. The names "Show Fps" and "show fps" have the
same service name, yet after `effectStatus("Show Fps", true)` and
`effectStatus("show fps", false)` two pending edits exist, and `syncConfig`
writes both values under the one key. Which of them is written last depends on
the iteration order of the hash: visiting "show fps" first leaves the key
reading `true`, the value of the first call. -/
theorem effectStatus_keyed_by_name_counterexample :
    EffectModel.serviceName "Show Fps".toList = EffectModel.serviceName "show fps".toList
    ∧ ((EffectView.create.effectStatus "Show Fps".toList true).effectStatus
          "show fps".toList false).m_effectStatus
        = [("Show Fps".toList, true), ("show fps".toList, false)]
    ∧ (((EffectView.create.effectStatus "Show Fps".toList true).effectStatus
          "show fps".toList false).syncConfig emptyWorld).2.trace
        = [Event.writeEntry "kwin4_effect_showfpsEnabled".toList "true".toList,
           Event.writeEntry "kwin4_effect_showfpsEnabled".toList "false".toList,
           Event.sync]
    ∧ ((EffectView.mk [("show fps".toList, false), ("Show Fps".toList, true)]).syncConfig
          emptyWorld).2.plugins.readEntry "kwin4_effect_showfpsEnabled".toList false = true := by
  decide

/-- C7, amended. `effectStatus` records or overwrites a pending edit keyed by
the effect name as passed: in a hash with distinct keys, `effectStatus(a, x)`
followed by `effectStatus(a, y)` is the same as `effectStatus(a, y)` alone, it
leaves exactly one pending edit for `a`, with value `y`, and the edits of all
other names as they were; `syncConfig` then writes `y` under
`serviceName(a) + "Enabled"`, and the key reads back as `y` provided no other
pending name has the same service name. Edits under two different names are
both kept. -/
theorem effectStatus_overwrites (v : EffectView)
    (hv : (v.m_effectStatus.map Prod.fst).Nodup) (a : QString) (x y : Bool) (w : World) :
    (v.effectStatus a x).effectStatus a y = v.effectStatus a y
    ∧ QHash.find ((v.effectStatus a x).effectStatus a y).m_effectStatus a = some y
    ∧ (((v.effectStatus a x).effectStatus a y).m_effectStatus.filter
          (fun it => decide (it.1 = a))).length = 1
    ∧ (∀ b : QString, b ≠ a →
        QHash.find ((v.effectStatus a x).effectStatus a y).m_effectStatus b
          = QHash.find v.m_effectStatus b)
    ∧ Event.writeEntry (EffectModel.serviceName a ++ "Enabled".toList) (QVariant.bool y).toString
        ∈ (((v.effectStatus a x).effectStatus a y).syncConfig w).2.trace
    ∧ ((∀ it ∈ v.m_effectStatus, it.1 ≠ a →
          EffectModel.serviceName it.1 ≠ EffectModel.serviceName a) →
        (((v.effectStatus a x).effectStatus a y).syncConfig w).2.plugins.readEntry
          (EffectModel.serviceName a ++ "Enabled".toList) false = y)
    ∧ (∀ (b : QString) (z : Bool), b ≠ a →
        ((EffectView.create.effectStatus a x).effectStatus b z).m_effectStatus
          = [(a, x), (b, z)]) := by
  have h1 : (v.effectStatus a x).effectStatus a y = v.effectStatus a y := by
    simp [EffectView.effectStatus, QHash.insert_insert]
  have hmem : (a, y) ∈ (v.effectStatus a y).m_effectStatus :=
    QHash.mem_of_find _ _ _ (QHash.find_insert_self _ _ _)
  rw [h1]
  refine ⟨rfl, QHash.find_insert_self _ _ _, QHash.count_insert _ _ _ hv,
    fun b hb => QHash.find_insert_other _ _ _ _ hb, ?_, ?_, ?_⟩
  · rw [syncConfig_world]
    simp only [List.mem_append, List.mem_map, List.mem_singleton]
    exact Or.inl (Or.inr ⟨(a, y), hmem, rfl⟩)
  · intro hother
    have hlook : ((v.effectStatus a y).syncConfig w).2.plugins.lookup (enabledKey a)
        = some (QVariant.bool y).toString := by
      rw [syncConfig_world]
      simp only [KConfigGroup.lookup]
      apply lookup_append_of_unique
      · exact List.mem_reverse.2 (List.mem_map.2 ⟨(a, y), hmem, rfl⟩)
      · intro e he hkey
        obtain ⟨it, hit, rfl⟩ := List.mem_map.1 (List.mem_reverse.1 he)
        rcases QHash.mem_insert _ _ _ hv it hit with h2 | h2
        · rw [h2]
          rfl
        · exfalso
          apply hother it h2.1 h2.2
          have hkey2 : EffectModel.serviceName it.1 ++ "Enabled".toList
              = EffectModel.serviceName a ++ "Enabled".toList := hkey
          exact List.append_cancel_right hkey2
    exact readEntry_of_lookup_bool _ _ _ _ hlook
  · intro b z hb
    have hab : ¬ a = b := fun e => hb e.symm
    simp [EffectView.effectStatus, EffectView.create, QHash.insert, hab]

/-- Witness of the amended C7: starting from the view that already holds an
edit for Zoom, two edits of "Show Fps" in the sample environment. -/
theorem effectStatus_overwrites_witness :
    QHash.find (((EffectView.mk [("Zoom".toList, true)]).effectStatus "Show Fps".toList
        true).effectStatus "Show Fps".toList false).m_effectStatus "Show Fps".toList = some false
    ∧ ((((EffectView.mk [("Zoom".toList, true)]).effectStatus "Show Fps".toList
          true).effectStatus "Show Fps".toList false).syncConfig sampleWorld).2.plugins.readEntry
        (EffectModel.serviceName "Show Fps".toList ++ "Enabled".toList) false = false
    ∧ ((EffectView.create.effectStatus "Show Fps".toList true).effectStatus
          "show fps".toList true).m_effectStatus
        = [("Show Fps".toList, true), ("show fps".toList, true)] :=
  ⟨(effectStatus_overwrites (EffectView.mk [("Zoom".toList, true)]) (by decide)
      "Show Fps".toList true false sampleWorld).2.1,
   (effectStatus_overwrites (EffectView.mk [("Zoom".toList, true)]) (by decide)
      "Show Fps".toList true false sampleWorld).2.2.2.2.2.1 (by decide),
   (effectStatus_overwrites (EffectView.mk [("Zoom".toList, true)]) (by decide)
      "Show Fps".toList true false sampleWorld).2.2.2.2.2.2 "show fps".toList true (by decide)⟩

/-! ## C4 -/

theorem loadEffects_perm_append
    (qSort : (EffectData → EffectData → Bool) → List EffectData → List EffectData)
    (hq : QSortContract qSort) (m : EffectModel) (w : World) :
    (EffectModel.loadEffects qSort m w).1.m_effectsList.Perm
      (m.m_effectsList ++ discovered w) := by
  rw [loadEffects_model]
  exact hq.perm categoryLessThan _

/-- C4. Starting from an empty pending-edit map, `effectStatus(n, b)` followed
by `syncConfig()` leaves the key `serviceName(n) + "Enabled"` of the store
reading back as `b`, whatever the store held before. A subsequent
`loadEffects()` in which a plugin named `n` is discovered puts a descriptor
for it with enabled flag `b` into the model (after `reload()` every descriptor
named `n` has the flag `b`), and when `b` is true the `loadEffect` call it
sends has `serviceName(n)` among its arguments. -/
theorem effectStatus_syncConfig_loadEffects
    (qSort : (EffectData → EffectData → Bool) → List EffectData → List EffectData)
    (hq : QSortContract qSort) (n : QString) (b : Bool) (w : World) (m : EffectModel)
    (p : KPluginInfo) (hp : p ∈ w.offers) (hn : p.name = n) :
    ((EffectView.create.effectStatus n b).syncConfig w).2.plugins.readEntry
        (EffectModel.serviceName n ++ "Enabled".toList) false = b
    ∧ (∃ d ∈ (EffectModel.loadEffects qSort m
          ((EffectView.create.effectStatus n b).syncConfig w).2).1.m_effectsList,
        d.name = n ∧ d.serviceName = EffectModel.serviceName n ∧ d.effectStatus = b)
    ∧ (∀ d ∈ (EffectModel.reload qSort m
          ((EffectView.create.effectStatus n b).syncConfig w).2).1.m_effectsList,
        d.name = n → d.effectStatus = b)
    ∧ (b = true → ∃ loadArgs unloadArgs : List QString,
        (EffectModel.loadEffects qSort m
          ((EffectView.create.effectStatus n b).syncConfig w).2).2.sent
          = w.sent ++ [effectsCall "loadEffect".toList loadArgs,
                       effectsCall "unloadEffect".toList unloadArgs]
        ∧ EffectModel.serviceName n ∈ loadArgs) := by
  subst hn
  have hread : ((EffectView.create.effectStatus p.name b).syncConfig w).2.plugins.readEntry
      (enabledKey p.name) false = b := by
    apply readEntry_of_lookup_bool
    rw [syncConfig_world]
    simp [EffectView.create, EffectView.effectStatus, QHash.insert, KConfigGroup.lookup,
      pendingEntry, List.lookup_cons]
  have hoffers : ((EffectView.create.effectStatus p.name b).syncConfig w).2.offers = w.offers :=
    syncConfig_offers _ w
  have hsent : ((EffectView.create.effectStatus p.name b).syncConfig w).2.sent = w.sent :=
    syncConfig_sent _ w
  have hp2 : p ∈ ((EffectView.create.effectStatus p.name b).syncConfig w).2.offers := by
    rw [hoffers]
    exact hp
  have hd : loadEffectData ((EffectView.create.effectStatus p.name b).syncConfig w).2.plugins p
      ∈ discovered ((EffectView.create.effectStatus p.name b).syncConfig w).2 :=
    List.mem_map.2 ⟨p, hp2, rfl⟩
  have hstatus : (loadEffectData
      ((EffectView.create.effectStatus p.name b).syncConfig w).2.plugins p).effectStatus = b :=
    hread
  refine ⟨hread, ?_, ?_, ?_⟩
  · refine ⟨_, (loadEffects_perm_append qSort hq m _).mem_iff.2
      (List.mem_append_right _ hd), rfl, rfl, hstatus⟩
  · intro d hmem hname
    have hmem2 : d ∈ discovered ((EffectView.create.effectStatus p.name b).syncConfig w).2 :=
      (loadEffects_perm qSort hq _).mem_iff.1 hmem
    rw [(discovered_effectStatus _ d hmem2).2, hname]
    exact hread
  · intro hb
    refine ⟨(loadMessage ((EffectView.create.effectStatus p.name b).syncConfig w).2).arguments,
      (unloadMessage ((EffectView.create.effectStatus p.name b).syncConfig w).2).arguments,
      ?_, ?_⟩
    · rw [loadEffects_sent, hsent]
      rfl
    · refine List.mem_map.2 ⟨_, List.mem_filter.2 ⟨hd, ?_⟩, ?_⟩
      · rw [hstatus, hb]
      · rfl

/-- Witness of C4: enabling Blur in an environment that had it disabled. -/
theorem effectStatus_syncConfig_loadEffects_witness :
    ((EffectView.create.effectStatus "Blur".toList true).syncConfig
        blurOffWorld).2.plugins.readEntry "kwin4_effect_blurEnabled".toList false = true
    ∧ (∃ d ∈ (EffectModel.loadEffects insertionQSort { m_effectsList := [] }
          ((EffectView.create.effectStatus "Blur".toList true).syncConfig
            blurOffWorld).2).1.m_effectsList,
        d.name = "Blur".toList ∧ d.serviceName = "kwin4_effect_blur".toList
        ∧ d.effectStatus = true)
    ∧ ∃ loadArgs unloadArgs : List QString,
        (EffectModel.loadEffects insertionQSort { m_effectsList := [] }
          ((EffectView.create.effectStatus "Blur".toList true).syncConfig blurOffWorld).2).2.sent
          = blurOffWorld.sent ++ [effectsCall "loadEffect".toList loadArgs,
                       effectsCall "unloadEffect".toList unloadArgs]
        ∧ "kwin4_effect_blur".toList ∈ loadArgs :=
  ⟨(effectStatus_syncConfig_loadEffects insertionQSort insertionQSort_contract "Blur".toList
      true blurOffWorld { m_effectsList := [] } (plugin "Blur" "Appearance") (by decide) rfl).1,
   (effectStatus_syncConfig_loadEffects insertionQSort insertionQSort_contract "Blur".toList
      true blurOffWorld { m_effectsList := [] } (plugin "Blur" "Appearance") (by decide) rfl).2.1,
   (effectStatus_syncConfig_loadEffects insertionQSort insertionQSort_contract "Blur".toList
      true blurOffWorld { m_effectsList := [] } (plugin "Blur" "Appearance") (by decide)
      rfl).2.2.2 rfl⟩

/-! ## C3 -/

theorem data_of_invalid (m : EffectModel) (index : QModelIndex) (role : Role)
    (h : index.isValid = false) : m.data index role = some QVariant.invalid := by
  simp [EffectModel.data, h]

theorem data_of_valid_out_of_range (m : EffectModel) (index : QModelIndex) (role : Role)
    (hvalid : index.isValid = true) (hrow : m.rowCount ≤ index.row) :
    m.data index role = none := by
  have hat : QList.at m.m_effectsList index.row = none := by
    have : ¬ (0 ≤ index.row ∧ index.row < (m.m_effectsList.length : Int)) := by
      simp only [EffectModel.rowCount] at hrow
      omega
    simp [QList.at, this]
  simp [EffectModel.data, hvalid, hat]

/-- C3, the failing input. On the model without rows, the index with row 0,
column 0 and a model pointer is valid (`isValid()` holds) and its row is not
below `rowCount()`; `data` passes the validity test and reaches
`m_effectsList.at(0)` on the empty list, the out-of-range access, for the name
role as for a role outside the enumeration. The same happens with row 3 on the
model loaded from the sample environment, while an invalid index (row -1) gets
the empty `QVariant`. -/
theorem data_out_of_range_access :
    (QModelIndex.mk 0 0 true).isValid = true
    ∧ (EffectModel.mk []).rowCount = 0
    ∧ (EffectModel.mk []).data (QModelIndex.mk 0 0 true) Role.NameRole = none
    ∧ (EffectModel.mk []).data (QModelIndex.mk 0 0 true) Role.other = none
    ∧ (EffectModel.create insertionQSort sampleWorld).1.rowCount = 3
    ∧ (EffectModel.create insertionQSort sampleWorld).1.data (QModelIndex.mk 3 0 true)
        Role.NameRole = none
    ∧ (EffectModel.create insertionQSort sampleWorld).1.data (QModelIndex.mk 2 0 true)
        Role.NameRole = some (QVariant.string "Show Fps".toList)
    ∧ (EffectModel.create insertionQSort sampleWorld).1.data (QModelIndex.mk (-1) 0 true)
        Role.NameRole = some QVariant.invalid := by
  decide

end Compositing
end KWin
